import Mathlib

/-!
Verification of the message-object signing/proving utilities of the
crypto-wasm-ts repository (`src/sign-verify-js-objs.ts`, the anonymous
credential builder/credential files, and the accumulator state-store
contract exercised by `tests/accumulator.spec.ts`).

Embedding conventions:
* JS objects (nested attribute records) are embedded as the inductive
  `JSObj`; a record is a chain of `cons` cells (one per field, in insertion
  order) ending in `nil`, and a leaf value is `leaf v`.  Leaf values are
  kept abstract as strings.  JS guarantees that the keys of one record are
  distinct; theorems that need this take it as a `Nodup` hypothesis.
* The external `flat` npm package's `flatten` is modelled by `flattenFrom`
  (depth-first traversal producing dot-joined paths).  Its `unflatten`
  composed with a later `flatten` cancels on flat leaf-path records, so the
  model passes the flat record through directly where the source round-trips
  through `unflatten`.
* JS `Array.prototype.sort` on strings compares code units; we model the
  same lexicographic order with `sLE`, defined via the characters' numeric
  codes so that it is kernel-computable (the orders agree on the BMP and in
  particular on all ASCII names).
* `Uint8Array` values (encoded messages, signatures, blindings) are
  `List Nat`.
* Fallible code returns `Except String`.
-/

deriving instance DecidableEq for Except

namespace CryptoWasmTs

/-- Leaf values of attribute objects (kept abstract as strings). -/
abbrev Value := String

/-- Encoded field elements / byte arrays (`Uint8Array` in the source). -/
abbrev EncodedMsg := List Nat

/-- Numeric key of a string: the list of its character codes.  Comparing
these lists lexicographically is the code-unit order JS string sort uses. -/
def strKey (s : String) : List Nat := s.data.map Char.toNat

/-- The string order used by `Array.prototype.sort()` on flattened names. -/
def sLE (a b : String) : Prop := strKey a ≤ strKey b

instance decSLE : DecidableRel sLE :=
  fun a b => inferInstanceAs (Decidable (strKey a ≤ strKey b))

/-- Sorting a list of names, as `.sort()` does in the source. -/
def sortStrings (l : List String) : List String := List.insertionSort sLE l

/-- A JS object: a leaf value, or a record given as a chain of fields in
insertion order.  `cons k v rest` is the record that starts with field
`k : v` and continues with the record `rest`. -/
inductive JSObj where
  | leaf : Value → JSObj
  | nil : JSObj
  | cons : String → JSObj → JSObj → JSObj
deriving DecidableEq

/-- Dot-joining of key paths as done by the `flat` package. -/
def dotJoin (pre k : String) : String := if pre = "" then k else pre ++ "." ++ k

/-- `flatten` of the `flat` package, carrying the path prefix. -/
def flattenFrom (pre : String) : JSObj → List (String × Value)
  | JSObj.leaf v => [(pre, v)]
  | JSObj.nil => []
  | JSObj.cons k v rest => flattenFrom (dotJoin pre k) v ++ flattenFrom pre rest

/-- `flatten(messages)`: dot-joined leaf paths with their values. -/
def flattenObj (o : JSObj) : List (String × Value) := flattenFrom "" o

/-- `MessageStructure`: same shape as an attribute object but with `null`
(`leaf`) at every leaf. -/
inductive MsgStructure where
  | leaf : MsgStructure
  | nil : MsgStructure
  | cons : String → MsgStructure → MsgStructure → MsgStructure
deriving DecidableEq

/-- Key paths of `flatten(msgStructure)`, carrying the path prefix. -/
def flattenStructFrom (pre : String) : MsgStructure → List String
  | MsgStructure.leaf => [pre]
  | MsgStructure.nil => []
  | MsgStructure.cons k v rest =>
      flattenStructFrom (dotJoin pre k) v ++ flattenStructFrom pre rest

/-- `flattenMessageStructure` of the source: `flatten(msgStructure)`,
viewed through its key list. -/
def flattenMessageStructure (m : MsgStructure) : List String :=
  flattenStructFrom "" m

/-- `Object.keys(flattenMessageStructure(msgStructure)).sort()`. -/
def sortedStructNames (m : MsgStructure) : List String :=
  sortStrings (flattenMessageStructure m)

/-- An `Encoder`'s per-message encoding function `encodeMessage(name, value)`.
Modelled from the spec: the encoding of a leaf is a deterministic function of
the leaf's path name and raw value (section 4.1); we keep it abstract. -/
abbrev Encoder := String → Value → EncodedMsg

/-- Property lookup `flattened[n]` on the flat record. -/
def lookupFlat (flat : List (String × Value)) (n : String) : Option Value :=
  (flat.find? (fun p => p.1 == n)).map Prod.snd

/-- The encoded value the encoder produces for the leaf named `n` of the
flat record `flat`. -/
def encFlat (enc : Encoder) (flat : List (String × Value)) (n : String) :
    EncodedMsg :=
  enc n ((lookupFlat flat n).getD "")

/-- Modelled from the spec: `Encoder.encodeMessageObject` (the Canonical
Encoder of section 4.1, whose implementation is not under `src/`) returns
the lexicographically sorted flattened path names of the object together
with the encoded value of each named leaf, in the same order. -/
def encodeMessageObject (enc : Encoder) (messages : JSObj) :
    List String × List EncodedMsg :=
  let flat := flattenObj messages
  let names := sortStrings (flat.map Prod.fst)
  (names, names.map (encFlat enc flat))

/-- The loop of `getRevealedAndUnrevealed`: walks the name and value lists
in parallel from index `i`, splitting entries into the revealed and
unrevealed maps and counting revealed hits (`found`). -/
def splitLoop (revealedMsgNames : List String) :
    Nat → List String → List EncodedMsg →
    List (Nat × EncodedMsg) × List (Nat × EncodedMsg) × Nat
  | _, [], _ => ([], [], 0)
  | _, _ :: _, [] => ([], [], 0)
  | i, n :: ns, v :: vs =>
    let rest := splitLoop revealedMsgNames (i + 1) ns vs
    if n ∈ revealedMsgNames then ((i, v) :: rest.1, rest.2.1, rest.2.2 + 1)
    else (rest.1, (i, v) :: rest.2.1, rest.2.2)

/-- The error message thrown when `k` of the requested reveal names were
not found. -/
def revealNotFoundMsg (k : Nat) : String :=
  "Some of the revealed message names were not found in the given messages object, "
    ++ toString k ++ " extra names found"

/-- `getRevealedAndUnrevealed(messages, revealedMsgNames, encoder)` of
`sign-verify-js-objs.ts`.  The JS `Set` of revealed names is modelled as a
list in insertion order (a set's elements are distinct, which theorems take
as a `Nodup` hypothesis).  The third component is the flat form of the
`revealedMsgsRaw` record (the source returns `unflatten` of it; the
verifier-side `encodeRevealedMsgs` immediately re-flattens, and the
round-trip is the identity on flat leaf-path records). -/
def getRevealedAndUnrevealed (enc : Encoder) (messages : JSObj)
    (revealedMsgNames : List String) :
    Except String
      (List (Nat × EncodedMsg) × List (Nat × EncodedMsg) × List (String × Value)) :=
  let nv := encodeMessageObject enc messages
  let res := splitLoop revealedMsgNames 0 nv.1 nv.2
  if revealedMsgNames.length ≠ res.2.2 then
    Except.error (revealNotFoundMsg (revealedMsgNames.length - res.2.2))
  else
    Except.ok (res.1, res.2.1,
      revealedMsgNames.map (fun n => (n, (lookupFlat (flattenObj messages) n).getD "")))

/-- The loop of `encodeRevealedMsgs`: for each revealed `(name, value)`
pair, find the name's index in the sorted structure names and encode the
value, failing on the first unknown name. -/
def encodeRevealedLoop (enc : Encoder) (names : List String) :
    List (String × Value) → Except String (List (Nat × EncodedMsg))
  | [] => Except.ok []
  | (n, v) :: rest =>
    if n ∈ names then
      (encodeRevealedLoop enc names rest).map
        (fun r => (names.indexOf n, enc n v) :: r)
    else
      Except.error ("Message name " ++ n ++ " was not found")

/-- `encodeRevealedMsgs(revealedMsgsRaw, msgStructure, encoder)` of
`sign-verify-js-objs.ts`; the raw revealed record is passed in flat form
(see `getRevealedAndUnrevealed`). -/
def encodeRevealedMsgs (enc : Encoder) (revealedMsgsRaw : List (String × Value))
    (msgStructure : MsgStructure) : Except String (List (Nat × EncodedMsg)) :=
  encodeRevealedLoop enc (sortedStructNames msgStructure) revealedMsgsRaw

/-- `isValidMsgStructure(messages, msgStructure)` of
`sign-verify-js-objs.ts`.  The source's loop runs `i` from `0` up to and
including `namesInMsgs.length`; the final iteration compares two
out-of-bounds reads, which we model as comparing the `Option` results of
`get?` (both `none` there, as both reads are `undefined` in JS). -/
def isValidMsgStructure (messages : JSObj) (msgStructure : MsgStructure) : Bool :=
  let namesInStruct := sortedStructNames msgStructure
  let namesInMsgs := sortStrings ((flattenObj messages).map Prod.fst)
  namesInMsgs.length == namesInStruct.length &&
    (List.range (namesInMsgs.length + 1)).all
      (fun i => namesInStruct.get? i == namesInMsgs.get? i)

/-- The loop of `getIndicesForMsgNames`: map each requested name to its
index in the sorted structure names, failing on the first name not found
(the source checks `indexOf(n) === -1`). -/
def getIndicesLoop (allNames : List String) :
    List String → Except String (List Nat)
  | [] => Except.ok []
  | n :: rest =>
    if n ∈ allNames then
      (getIndicesLoop allNames rest).map (fun r => allNames.indexOf n :: r)
    else
      Except.error ("Message name " ++ n ++ " was not found")

/-- `getIndicesForMsgNames(msgNames, msgStructure)` of
`sign-verify-js-objs.ts`. -/
def getIndicesForMsgNames (msgNames : List String)
    (msgStructure : MsgStructure) : Except String (List Nat) :=
  getIndicesLoop (sortedStructNames msgStructure) msgNames

/-- `createWitnessEqualityMetaStatement(equality)` of
`sign-verify-js-objs.ts`.  The JS `Map` argument is modelled as its entry
list in insertion order; the resulting `WitnessEqualityMetaStatement` is
the list of `(statementIndex, messageIndex)` witness references in the
order `addWitnessRef` is called. -/
def createWitnessEqualityMetaStatement :
    List (Nat × List String × MsgStructure) → Except String (List (Nat × Nat))
  | [] => Except.ok []
  | (sIdx, names, struct) :: rest =>
    match getIndicesForMsgNames names struct with
    | Except.error e => Except.error e
    | Except.ok indices =>
      match createWitnessEqualityMetaStatement rest with
      | Except.error e => Except.error e
      | Except.ok r => Except.ok (indices.map (fun i => (sIdx, i)) ++ r)

/-- Modelled from the spec: `Witness` values are opaque, scheme-specific
wrappers produced by `Witness.pedersenCommitment` (section 3, "Witness");
the orchestration core never inspects them, so the constructor is kept
free (injective). -/
inductive WitnessV where
  | pedersenCommitment : List EncodedMsg → WitnessV
deriving DecidableEq

/-- Key order used by `sortedMessages.sort(([a], [b]) => a - b)`. -/
def entryLE (a b : Nat × EncodedMsg) : Prop := a.1 ≤ b.1

instance decEntryLE : DecidableRel entryLE :=
  fun a b => inferInstanceAs (Decidable (a.1 ≤ b.1))

instance totalEntryLE : IsTotal (Nat × EncodedMsg) entryLE :=
  ⟨fun a b => Nat.le_total a.1 b.1⟩

instance transEntryLE : IsTrans (Nat × EncodedMsg) entryLE :=
  ⟨fun _ _ _ => Nat.le_trans⟩

/-- Strict key order on map entries (used only in proofs: two sorted entry
lists with distinct keys are strictly sorted, hence equal). -/
def entryLT (a b : Nat × EncodedMsg) : Prop := a.1 < b.1

instance antisymmEntryLT : IsAntisymm (Nat × EncodedMsg) entryLT :=
  ⟨fun a b h1 h2 => absurd (Nat.lt_trans h1 h2) (Nat.lt_irrefl a.1)⟩

/-- `[...messages.entries()].sort(([a], [b]) => a - b)`: the map's entries
sorted by message index ascending.  JS `sort` is stable and the model uses
a stable insertion sort; with distinct keys any sort agrees. -/
def sortEntries (messages : List (Nat × EncodedMsg)) : List (Nat × EncodedMsg) :=
  List.insertionSort entryLE messages

/-- `getBBSWitnessForBlindSigRequest(messages)` of `sign-verify-js-objs.ts`. -/
def getBBSWitnessForBlindSigRequest (messages : List (Nat × EncodedMsg)) :
    WitnessV :=
  WitnessV.pedersenCommitment ((sortEntries messages).map Prod.snd)

/-- `getBBSPlusWitnessForBlindSigRequest(messages, blinding)` of
`sign-verify-js-objs.ts`. -/
def getBBSPlusWitnessForBlindSigRequest (messages : List (Nat × EncodedMsg))
    (blinding : EncodedMsg) : WitnessV :=
  WitnessV.pedersenCommitment (blinding :: (sortEntries messages).map Prod.snd)

/-- `getPSWitnessesForBlindSigRequest(messages, blinding, blindings)` of
`sign-verify-js-objs.ts`: one commitment witness over all sorted messages
(blinding first), then one per message with its own blinding looked up in
the `blindings` map (modelled as an association list). -/
def getPSWitnessesForBlindSigRequest (messages : List (Nat × EncodedMsg))
    (blinding : EncodedMsg) (blindings : List (Nat × EncodedMsg)) :
    Except String (List WitnessV) :=
  let sortedMessages := sortEntries messages
  match sortedMessages.mapM (fun p =>
      match blindings.lookup p.1 with
      | none => Except.error ("Missing blinding for " ++ toString p.1)
      | some bl => Except.ok (WitnessV.pedersenCommitment [bl, p.2])) with
  | Except.error e => Except.error e
  | Except.ok rest =>
    Except.ok (WitnessV.pedersenCommitment (blinding :: sortedMessages.map Prod.snd) :: rest)

/-- Modelled from the spec: the stable field-name constants of section 6
("version tag, schema tag, subject tag, status tag, proof tag"). -/
def CRYPTO_VERSION_STR : String := "cryptoVersion"

/-- Modelled from the spec: the schema tag constant. -/
def SCHEMA_STR : String := "credentialSchema"

/-- Modelled from the spec: the subject tag constant. -/
def SUBJECT_STR : String := "credentialSubject"

/-- Modelled from the spec: the status tag constant. -/
def STATUS_STR : String := "credentialStatus"

/-- Modelled from the spec: the proof tag constant. -/
def PROOF_STR : String := "proof"

/-- Does the record have a field named `key`? -/
def hasKey : JSObj → String → Bool
  | JSObj.cons k _ rest, key => k == key || hasKey rest key
  | _, _ => false

/-- JS property assignment `s[key] = val` on a record: overwrite in place
when the key exists, otherwise append.  On a non-record it is a no-op
(records built by the credential code are always records). -/
def setKey : JSObj → String → JSObj → JSObj
  | JSObj.cons k v rest, key, val =>
    if k = key then JSObj.cons k val rest
    else JSObj.cons k v (setKey rest key val)
  | JSObj.nil, key, val => JSObj.cons key val JSObj.nil
  | JSObj.leaf v, _, _ => JSObj.leaf v

/-- Modelled from the spec: a `CredentialSchema` as the credential code
consumes it — its canonical JSON rendering (`toJsonString`) and the sorted
flattened leaf-path list its `flatten()[0]` returns (the schema class
itself is not under `src/`). -/
structure CredSchema where
  jsonString : String
  flattenedNames : List String
deriving DecidableEq

/-- The `CredentialBuilder` state relevant to `serializeForSigning`/`sign`
(`credential-builder.ts`): version, schema, subject, top-level fields (a
map, kept in insertion order) and optional credential status. -/
structure CredentialBuilder where
  version : String
  schema : CredSchema
  subject : JSObj
  topLevelFields : List (String × JSObj)
  credStatus : Option JSObj
deriving DecidableEq

/-- `CredentialBuilder.serializeForSigning()`: version tag, schema as a
JSON string, subject, then each top-level field in insertion order, then
the status block when present. -/
def CredentialBuilder.serializeForSigning (b : CredentialBuilder) : JSObj :=
  let base := JSObj.cons CRYPTO_VERSION_STR (JSObj.leaf b.version)
    (JSObj.cons SCHEMA_STR (JSObj.leaf b.schema.jsonString)
      (JSObj.cons SUBJECT_STR b.subject JSObj.nil))
  let s := b.topLevelFields.foldl (fun acc kv => setKey acc kv.1 kv.2) base
  match b.credStatus with
  | some st => setKey s STATUS_STR st
  | none => s

/-- `areArraysEqual` of `tests/utils`.  Modelled from the spec: element-wise
equality of the two arrays. -/
def areArraysEqual (a b : List String) : Bool := a == b

/-- `CredentialBuilder.hasAllFieldsFromSchema(serializedCred, schema)`:
compares the schema's flattened leaf list with the sorted flattened key
list of the serialized credential. -/
def hasAllFieldsFromSchema (serializedCred : JSObj) (schema : CredSchema) : Bool :=
  areArraysEqual schema.flattenedNames
    (sortStrings ((flattenObj serializedCred).map Prod.fst))

/-- `CredentialBuilder.sign(secretKey, signatureParams?)`: serialize, check
the field set against the schema and only then sign.  The cryptographic
primitive `signMessageObject(cred, secretKey, params, encoder)` is not part
of this core; it enters as the abstract function `signFn`, already applied
to the secret key, parameters and encoder, so that invoking it at all is
visible in the result. -/
def CredentialBuilder.sign (b : CredentialBuilder) (signFn : JSObj → EncodedMsg) :
    Except String EncodedMsg :=
  let cred := b.serializeForSigning
  if hasAllFieldsFromSchema cred b.schema then Except.ok (signFn cred)
  else Except.error "Credential does not have all the fields from schema"

/-- A signed `Credential`'s fields relevant to `serializeForSigning`
(`credential.ts`): version, the schema's JSON string, subject, top-level
fields and optional status. -/
structure CredentialV where
  version : String
  schemaJson : String
  subject : JSObj
  topLevelFields : List (String × JSObj)
  credentialStatus : Option JSObj
deriving DecidableEq

/-- `applyDefaultProofMetadataIfNeeded(s)`: when `s` has no `proof` field,
append the default proof-metadata block `{ type: proofType }` (each
credential class supplies its own `proofType` constant). -/
def applyDefaultProofMetadataIfNeeded (proofType : String) (s : JSObj) : JSObj :=
  if hasKey s PROOF_STR then s
  else setKey s PROOF_STR (JSObj.cons "type" (JSObj.leaf proofType) JSObj.nil)

/-- `delete s[PROOF_STR]['proofValue']`: remove the field named `key` from
the record (all occurrences — a JS record holds each key at most once, so
this coincides with JS `delete` on every record a JS program can build). -/
def removeKey : JSObj → String → JSObj
  | JSObj.cons k v rest, key =>
    if k = key then removeKey rest key else JSObj.cons k v (removeKey rest key)
  | o, _ => o

/-- The key list of a record chain. -/
def recordKeys : JSObj → List String
  | JSObj.cons k _ rest => k :: recordKeys rest
  | _ => []

/-- The record with exactly the given fields in order. -/
def listToRecord : List (String × JSObj) → JSObj
  | [] => JSObj.nil
  | (k, v) :: rest => JSObj.cons k v (listToRecord rest)

/-- Replace the value of the field named `key` by `f` applied to it. -/
def mapKey : JSObj → String → (JSObj → JSObj) → JSObj
  | JSObj.cons k v rest, key, f =>
    if k = key then JSObj.cons k (f v) rest
    else JSObj.cons k v (mapKey rest key f)
  | o, _, _ => o

/-- `Credential.serializeForSigning()`: version tag, schema as a JSON
string, subject, top-level fields in insertion order, status when present,
then the default proof metadata, with `proofValue` deleted from the proof
block before signing. -/
def CredentialV.serializeForSigning (c : CredentialV) (proofType : String) : JSObj :=
  let base := JSObj.cons CRYPTO_VERSION_STR (JSObj.leaf c.version)
    (JSObj.cons SCHEMA_STR (JSObj.leaf c.schemaJson)
      (JSObj.cons SUBJECT_STR c.subject JSObj.nil))
  let s := c.topLevelFields.foldl (fun acc kv => setKey acc kv.1 kv.2) base
  let s := match c.credentialStatus with
    | some st => setKey s STATUS_STR st
    | none => s
  let s := applyDefaultProofMetadataIfNeeded proofType s
  mapKey s PROOF_STR (fun p => removeKey p "proofValue")

/-- Does the serialized credential contain a `proofValue` field inside its
`proof` block? -/
def hasProofValueUnderProof : JSObj → Bool
  | JSObj.cons k v rest =>
    (k == PROOF_STR && hasKey v "proofValue") || hasProofValueUnderProof rest
  | _ => false

/-- Modelled from the spec: the accumulator persistence store's `add`
(section 5/6 contract; the `InMemoryState` implementation is not under
`src/`, only the test exercising it is).  It must reject duplicate adds and
apply each add at most once; the state is the member list.  A failed call
returns an error and produces no new state, so the caller's state is
exactly what it was before the call. -/
def accumStateAdd (state : List Nat) (e : Nat) : Except String (List Nat) :=
  if e ∈ state then Except.error "DuplicateMember"
  else Except.ok (state ++ [e])

/-- Modelled from the spec: the accumulator persistence store's `remove`;
it must reject removal of non-members. -/
def accumStateRemove (state : List Nat) (e : Nat) : Except String (List Nat) :=
  if e ∈ state then Except.ok (state.filter (fun x => x ≠ e))
  else Except.error "NotAMember"

/-- Modelled from the spec: the store's batch add; transactionally
consistent, so a batch repeating an existing member fails as a whole and
leaves the state unchanged. -/
def accumStateAddBatch (state : List Nat) (es : List Nat) :
    Except String (List Nat) :=
  if es.any (fun e => decide (e ∈ state)) then Except.error "DuplicateMember"
  else Except.ok (state ++ es)

/-- Modelled from the spec: the store's batch remove; transactionally
consistent, failing as a whole when any element is not a member. -/
def accumStateRemoveBatch (state : List Nat) (es : List Nat) :
    Except String (List Nat) :=
  if es.all (fun e => decide (e ∈ state)) then
    Except.ok (state.filter (fun x => x ∉ es))
  else Except.error "NotAMember"

/-- The message structure of the end-to-end scenario: leaf names
ssn, fname, lname, email, city (in the insertion order of the test's
message array). -/
def scenarioStruct : MsgStructure :=
  MsgStructure.cons "ssn" MsgStructure.leaf
    (MsgStructure.cons "fname" MsgStructure.leaf
      (MsgStructure.cons "lname" MsgStructure.leaf
        (MsgStructure.cons "email" MsgStructure.leaf
          (MsgStructure.cons "city" MsgStructure.leaf MsgStructure.nil))))

/-- A concrete encoder used by the witness instances: it encodes a leaf as
the character codes of its name followed by those of its value. -/
def encW : Encoder := fun n v => strKey n ++ strKey v

/-- A concrete attribute object used by the witness instances:
`\x7b b: "1", a: \x7b x: "2" \x7d \x7d`. -/
def objW : JSObj :=
  JSObj.cons "b" (JSObj.leaf "1")
    (JSObj.cons "a" (JSObj.cons "x" (JSObj.leaf "2") JSObj.nil) JSObj.nil)

/-- The message structure matching `objW`. -/
def structW : MsgStructure :=
  MsgStructure.cons "b" MsgStructure.leaf
    (MsgStructure.cons "a"
      (MsgStructure.cons "x" MsgStructure.leaf MsgStructure.nil) MsgStructure.nil)

/-- A concrete credential builder used by the witness instances; its schema
lists exactly the sorted flattened keys of its serialized form. -/
def builderW : CredentialBuilder :=
  { version := "0.0.1"
    schema :=
      { jsonString := "\x7b\x7d"
        flattenedNames :=
          ["credentialSchema", "credentialSubject.name", "cryptoVersion"] }
    subject := JSObj.cons "name" (JSObj.leaf "x") JSObj.nil
    topLevelFields := []
    credStatus := none }

/-- A concrete credential used by the witness instances. -/
def credW : CredentialV :=
  { version := "0.1.0"
    schemaJson := "\x7b\x7d"
    subject := JSObj.cons "name" (JSObj.leaf "x") JSObj.nil
    topLevelFields := [("issuer", JSObj.leaf "I")]
    credentialStatus := none }

/-- A concrete equality specification used by the witness instances. -/
def equalityW : List (Nat × List String × MsgStructure) :=
  [(0, ["b", "a.x"], structW), (2, ["a.x"], structW)]

lemma sortStrings_perm (l : List String) : (sortStrings l).Perm l :=
  List.perm_insertionSort sLE l

lemma mem_sortStrings {a : String} {l : List String} :
    a ∈ sortStrings l ↔ a ∈ l :=
  (sortStrings_perm l).mem_iff

lemma sortStrings_nodup {l : List String} (h : l.Nodup) :
    (sortStrings l).Nodup :=
  (sortStrings_perm l).nodup_iff.mpr h

lemma splitLoop_rev_mem (R : List String) (f : String → EncodedMsg) :
    ∀ (ns : List String) (i j : ℕ) (w : EncodedMsg),
      ((j, w) ∈ (splitLoop R i ns (ns.map f)).1 ↔
        ∃ k nm, ns.get? k = some nm ∧ j = i + k ∧ nm ∈ R ∧ w = f nm) := by
  intro ns
  induction ns with
  | nil =>
    intro i j w
    constructor
    · intro h; simp [splitLoop] at h
    · rintro ⟨k, nm, hget, -⟩; simp at hget
  | cons n ns ih =>
    intro i j w
    constructor
    · intro h
      simp only [List.map_cons, splitLoop] at h
      by_cases hn : n ∈ R
      · rw [if_pos hn] at h
        rcases List.mem_cons.mp h with h | h
        · rcases Prod.mk.injEq .. ▸ h with ⟨hj, hw⟩
          exact ⟨0, n, rfl, by omega, hn, hw⟩
        · rcases (ih (i + 1) j w).mp h with ⟨k, nm, hget, hj, hmem, hw⟩
          exact ⟨k + 1, nm, by simpa using hget, by omega, hmem, hw⟩
      · rw [if_neg hn] at h
        rcases (ih (i + 1) j w).mp h with ⟨k, nm, hget, hj, hmem, hw⟩
        exact ⟨k + 1, nm, by simpa using hget, by omega, hmem, hw⟩
    · rintro ⟨k, nm, hget, hj, hmem, hw⟩
      simp only [List.map_cons, splitLoop]
      cases k with
      | zero =>
        simp only [List.get?_cons_zero, Option.some.injEq] at hget
        subst hget hw
        rw [if_pos hmem]
        have hj' : j = i := by omega
        subst hj'
        exact List.mem_cons_self _ _
      | succ k =>
        have hmem' := (ih (i + 1) j w).mpr
          ⟨k, nm, by simpa using hget, by omega, hmem, hw⟩
        by_cases hn : n ∈ R
        · rw [if_pos hn]; exact List.mem_cons_of_mem _ hmem'
        · rw [if_neg hn]; exact hmem'

lemma splitLoop_unrev_mem (R : List String) (f : String → EncodedMsg) :
    ∀ (ns : List String) (i j : ℕ) (w : EncodedMsg),
      ((j, w) ∈ (splitLoop R i ns (ns.map f)).2.1 ↔
        ∃ k nm, ns.get? k = some nm ∧ j = i + k ∧ nm ∉ R ∧ w = f nm) := by
  intro ns
  induction ns with
  | nil =>
    intro i j w
    constructor
    · intro h; simp [splitLoop] at h
    · rintro ⟨k, nm, hget, -⟩; simp at hget
  | cons n ns ih =>
    intro i j w
    constructor
    · intro h
      simp only [List.map_cons, splitLoop] at h
      by_cases hn : n ∈ R
      · rw [if_pos hn] at h
        rcases (ih (i + 1) j w).mp h with ⟨k, nm, hget, hj, hmem, hw⟩
        exact ⟨k + 1, nm, by simpa using hget, by omega, hmem, hw⟩
      · rw [if_neg hn] at h
        rcases List.mem_cons.mp h with h | h
        · rcases Prod.mk.injEq .. ▸ h with ⟨hj, hw⟩
          exact ⟨0, n, rfl, by omega, hn, hw⟩
        · rcases (ih (i + 1) j w).mp h with ⟨k, nm, hget, hj, hmem, hw⟩
          exact ⟨k + 1, nm, by simpa using hget, by omega, hmem, hw⟩
    · rintro ⟨k, nm, hget, hj, hmem, hw⟩
      simp only [List.map_cons, splitLoop]
      cases k with
      | zero =>
        simp only [List.get?_cons_zero, Option.some.injEq] at hget
        subst hget hw
        rw [if_neg hmem]
        have hj' : j = i := by omega
        subst hj'
        exact List.mem_cons_self _ _
      | succ k =>
        have hmem' := (ih (i + 1) j w).mpr
          ⟨k, nm, by simpa using hget, by omega, hmem, hw⟩
        by_cases hn : n ∈ R
        · rw [if_pos hn]; exact hmem'
        · rw [if_neg hn]; exact List.mem_cons_of_mem _ hmem'

lemma splitLoop_found (R : List String) (f : String → EncodedMsg) :
    ∀ (ns : List String) (i : ℕ),
      (splitLoop R i ns (ns.map f)).2.2 =
        ns.countP (fun n => decide (n ∈ R)) := by
  intro ns
  induction ns with
  | nil => intro i; simp [splitLoop]
  | cons n ns ih =>
    intro i
    simp only [List.map_cons, splitLoop, List.countP_cons]
    by_cases hn : n ∈ R
    · rw [if_pos hn]; simp [hn, ih (i + 1)]
    · rw [if_neg hn]; simp [hn, ih (i + 1)]

lemma splitLoop_rev_pairwise (R : List String) (f : String → EncodedMsg) :
    ∀ (ns : List String) (i : ℕ),
      ((splitLoop R i ns (ns.map f)).1).Pairwise (fun a b => a.1 < b.1) := by
  intro ns
  induction ns with
  | nil => intro i; simp [splitLoop]
  | cons n ns ih =>
    intro i
    simp only [List.map_cons, splitLoop]
    by_cases hn : n ∈ R
    · rw [if_pos hn]
      refine List.Pairwise.cons ?_ (ih (i + 1))
      intro b hb
      rcases (splitLoop_rev_mem R f ns (i + 1) b.1 b.2).mp (by simpa using hb) with
        ⟨k, nm, -, hj, -, -⟩
      omega
    · rw [if_neg hn]; exact ih (i + 1)

lemma splitLoop_unrev_pairwise (R : List String) (f : String → EncodedMsg) :
    ∀ (ns : List String) (i : ℕ),
      ((splitLoop R i ns (ns.map f)).2.1).Pairwise (fun a b => a.1 < b.1) := by
  intro ns
  induction ns with
  | nil => intro i; simp [splitLoop]
  | cons n ns ih =>
    intro i
    simp only [List.map_cons, splitLoop]
    by_cases hn : n ∈ R
    · rw [if_pos hn]; exact ih (i + 1)
    · rw [if_neg hn]
      refine List.Pairwise.cons ?_ (ih (i + 1))
      intro b hb
      rcases (splitLoop_unrev_mem R f ns (i + 1) b.1 b.2).mp (by simpa using hb) with
        ⟨k, nm, -, hj, -, -⟩
      omega

lemma countP_mem_comm {names R : List String} (hN : names.Nodup) (hR : R.Nodup) :
    names.countP (fun n => decide (n ∈ R)) =
      (R.filter (fun n => decide (n ∈ names))).length := by
  rw [List.countP_eq_length_filter]
  have h1 : (names.filter (fun n => decide (n ∈ R))).Nodup := hN.filter _
  have h2 : (R.filter (fun n => decide (n ∈ names))).Nodup := hR.filter _
  refine List.Perm.length_eq ((List.perm_ext_iff_of_nodup h1 h2).mpr ?_)
  intro a
  simp only [List.mem_filter, decide_eq_true_eq]
  exact and_comm

lemma mem_map_fst {α β : Type} {l : List (α × β)} {i : α} :
    i ∈ l.map Prod.fst ↔ ∃ w, (i, w) ∈ l := by
  constructor
  · intro h
    rcases List.mem_map.mp h with ⟨⟨a, b⟩, hmem, hfst⟩
    exact ⟨b, by simpa [← hfst] using hmem⟩
  · rintro ⟨w, h⟩
    exact List.mem_map.mpr ⟨(i, w), h, rfl⟩

lemma emo_fst (enc : Encoder) (O : JSObj) :
    (encodeMessageObject enc O).1 = sortStrings ((flattenObj O).map Prod.fst) := rfl

lemma emo_snd (enc : Encoder) (O : JSObj) :
    (encodeMessageObject enc O).2 =
      (sortStrings ((flattenObj O).map Prod.fst)).map (encFlat enc (flattenObj O)) := rfl

lemma getRU_unfold (enc : Encoder) (O : JSObj) (R : List String) :
    getRevealedAndUnrevealed enc O R =
      if R.length ≠ (splitLoop R 0 (encodeMessageObject enc O).1
          (encodeMessageObject enc O).2).2.2 then
        Except.error (revealNotFoundMsg (R.length -
          (splitLoop R 0 (encodeMessageObject enc O).1
            (encodeMessageObject enc O).2).2.2))
      else
        Except.ok ((splitLoop R 0 (encodeMessageObject enc O).1
            (encodeMessageObject enc O).2).1,
          (splitLoop R 0 (encodeMessageObject enc O).1
            (encodeMessageObject enc O).2).2.1,
          R.map (fun n => (n, (lookupFlat (flattenObj O) n).getD ""))) := rfl

lemma splitLoop_rev_mem_zero (enc : Encoder) (O : JSObj) (R : List String)
    (j : ℕ) (w : EncodedMsg) :
    (j, w) ∈ (splitLoop R 0 (encodeMessageObject enc O).1
        (encodeMessageObject enc O).2).1 ↔
      ∃ nm, (encodeMessageObject enc O).1.get? j = some nm ∧ nm ∈ R ∧
        (encodeMessageObject enc O).2.get? j = some w := by
  rw [emo_snd, emo_fst, splitLoop_rev_mem]
  constructor
  · rintro ⟨k, nm, hget, hj, hmem, hw⟩
    have hk : j = k := by omega
    subst hk hw
    refine ⟨nm, hget, hmem, ?_⟩
    rw [List.get?_map, hget]
    rfl
  · rintro ⟨nm, hget, hmem, hw⟩
    rw [List.get?_map, hget] at hw
    exact ⟨j, nm, hget, by omega, hmem, by simpa using hw.symm⟩

lemma splitLoop_unrev_mem_zero (enc : Encoder) (O : JSObj) (R : List String)
    (j : ℕ) (w : EncodedMsg) :
    (j, w) ∈ (splitLoop R 0 (encodeMessageObject enc O).1
        (encodeMessageObject enc O).2).2.1 ↔
      ∃ nm, (encodeMessageObject enc O).1.get? j = some nm ∧ nm ∉ R ∧
        (encodeMessageObject enc O).2.get? j = some w := by
  rw [emo_snd, emo_fst, splitLoop_unrev_mem]
  constructor
  · rintro ⟨k, nm, hget, hj, hmem, hw⟩
    have hk : j = k := by omega
    subst hk hw
    refine ⟨nm, hget, hmem, ?_⟩
    rw [List.get?_map, hget]
    rfl
  · rintro ⟨nm, hget, hmem, hw⟩
    rw [List.get?_map, hget] at hw
    exact ⟨j, nm, hget, by omega, hmem, by simpa using hw.symm⟩

lemma getRU_found (enc : Encoder) (O : JSObj) (R : List String) :
    (splitLoop R 0 (encodeMessageObject enc O).1
        (encodeMessageObject enc O).2).2.2 =
      (encodeMessageObject enc O).1.countP (fun n => decide (n ∈ R)) := by
  rw [emo_snd, emo_fst, splitLoop_found]

/-- C1: for every attribute object, encoder and revealed-name set whose
names all occur among the flattened encoded names, the partition succeeds,
the revealed map holds exactly the indices of names in the set with the
encoded value at each index, the unrevealed map holds exactly the others,
the two key sets are disjoint, and together they cover exactly the indices
`0..n-1` of the encoded output.  The `Nodup` hypotheses express that JS
object keys and JS `Set` elements are distinct. -/
theorem c1_partition_covers_encoding (enc : Encoder) (O : JSObj) (R : List String)
    (hN : ((flattenObj O).map Prod.fst).Nodup) (hR : R.Nodup)
    (hSub : ∀ n ∈ R, n ∈ (encodeMessageObject enc O).1) :
    ∃ rev unrev raw,
      getRevealedAndUnrevealed enc O R = Except.ok (rev, unrev, raw) ∧
      (∀ j w, (j, w) ∈ rev ↔
        ∃ nm, (encodeMessageObject enc O).1.get? j = some nm ∧ nm ∈ R ∧
          (encodeMessageObject enc O).2.get? j = some w) ∧
      (∀ j w, (j, w) ∈ unrev ↔
        ∃ nm, (encodeMessageObject enc O).1.get? j = some nm ∧ nm ∉ R ∧
          (encodeMessageObject enc O).2.get? j = some w) ∧
      List.Disjoint (rev.map Prod.fst) (unrev.map Prod.fst) ∧
      (rev.map Prod.fst ++ unrev.map Prod.fst).Perm
        (List.range (encodeMessageObject enc O).1.length) := by
  classical
  have hNames : (encodeMessageObject enc O).1.Nodup := by
    rw [emo_fst]; exact sortStrings_nodup hN
  have hfull : R.filter (fun n => decide (n ∈ (encodeMessageObject enc O).1)) = R :=
    List.filter_eq_self.mpr (fun a ha => by simpa using hSub a ha)
  have hcount : (encodeMessageObject enc O).1.countP (fun n => decide (n ∈ R)) =
      R.length := by
    rw [countP_mem_comm hNames hR, hfull]
  have hfound : (splitLoop R 0 (encodeMessageObject enc O).1
      (encodeMessageObject enc O).2).2.2 = R.length := by
    rw [getRU_found, hcount]
  refine ⟨(splitLoop R 0 (encodeMessageObject enc O).1
      (encodeMessageObject enc O).2).1,
    (splitLoop R 0 (encodeMessageObject enc O).1
      (encodeMessageObject enc O).2).2.1,
    R.map (fun n => (n, (lookupFlat (flattenObj O) n).getD "")),
    ?_, ?_, ?_, ?_, ?_⟩
  · rw [getRU_unfold, if_neg (by omega)]
  · exact splitLoop_rev_mem_zero enc O R
  · exact splitLoop_unrev_mem_zero enc O R
  · intro i hi1 hi2
    rcases mem_map_fst.mp hi1 with ⟨w1, hw1⟩
    rcases mem_map_fst.mp hi2 with ⟨w2, hw2⟩
    rcases (splitLoop_rev_mem_zero enc O R i w1).mp hw1 with ⟨nm, hget, hmem, -⟩
    rcases (splitLoop_unrev_mem_zero enc O R i w2).mp hw2 with ⟨nm', hget', hmem', -⟩
    rw [hget] at hget'
    have hnm := Option.some.inj hget'
    subst hnm
    exact hmem' hmem
  · have hrevN : ((splitLoop R 0 (encodeMessageObject enc O).1
        (encodeMessageObject enc O).2).1.map Prod.fst).Nodup := by
      refine List.Pairwise.imp (fun h => Nat.ne_of_lt h) ?_
      rw [List.pairwise_map]
      rw [emo_fst, emo_snd]
      exact splitLoop_rev_pairwise R _ _ 0
    have hunrevN : ((splitLoop R 0 (encodeMessageObject enc O).1
        (encodeMessageObject enc O).2).2.1.map Prod.fst).Nodup := by
      refine List.Pairwise.imp (fun h => Nat.ne_of_lt h) ?_
      rw [List.pairwise_map]
      rw [emo_fst, emo_snd]
      exact splitLoop_unrev_pairwise R _ _ 0
    have hdisj : List.Disjoint
        ((splitLoop R 0 (encodeMessageObject enc O).1
          (encodeMessageObject enc O).2).1.map Prod.fst)
        ((splitLoop R 0 (encodeMessageObject enc O).1
          (encodeMessageObject enc O).2).2.1.map Prod.fst) := by
      intro i hi1 hi2
      rcases mem_map_fst.mp hi1 with ⟨w1, hw1⟩
      rcases mem_map_fst.mp hi2 with ⟨w2, hw2⟩
      rcases (splitLoop_rev_mem_zero enc O R i w1).mp hw1 with ⟨nm, hget, hmem, -⟩
      rcases (splitLoop_unrev_mem_zero enc O R i w2).mp hw2 with ⟨nm', hget', hmem', -⟩
      rw [hget] at hget'
      have hnm := Option.some.inj hget'
      subst hnm
      exact hmem' hmem
    refine (List.perm_ext_iff_of_nodup
      (List.nodup_append.mpr ⟨hrevN, hunrevN, hdisj⟩) (List.nodup_range _)).mpr ?_
    intro a
    rw [List.mem_append, List.mem_range, mem_map_fst, mem_map_fst]
    constructor
    · rintro (⟨w, hw⟩ | ⟨w, hw⟩)
      · rcases (splitLoop_rev_mem_zero enc O R a w).mp hw with ⟨nm, hget, -, -⟩
        by_contra hlen
        rw [List.get?_eq_none.mpr (by omega)] at hget
        cases hget
      · rcases (splitLoop_unrev_mem_zero enc O R a w).mp hw with ⟨nm, hget, -, -⟩
        by_contra hlen
        rw [List.get?_eq_none.mpr (by omega)] at hget
        cases hget
    · intro ha
      cases hq : (encodeMessageObject enc O).1.get? a with
      | none =>
        rw [List.get?_eq_none] at hq
        omega
      | some nm =>
        by_cases hmem : nm ∈ R
        · refine Or.inl ⟨encFlat enc (flattenObj O) nm,
            (splitLoop_rev_mem_zero enc O R a _).mpr ⟨nm, hq, hmem, ?_⟩⟩
          rw [emo_fst] at hq
          rw [emo_snd, List.get?_map, hq]
          rfl
        · refine Or.inr ⟨encFlat enc (flattenObj O) nm,
            (splitLoop_unrev_mem_zero enc O R a _).mpr ⟨nm, hq, hmem, ?_⟩⟩
          rw [emo_fst] at hq
          rw [emo_snd, List.get?_map, hq]
          rfl

lemma length_filter_split (R : List String) (p : String → Bool) :
    R.length = (R.filter p).length + (R.filter (fun n => !p n)).length := by
  rw [← List.countP_eq_length_filter, ← List.countP_eq_length_filter]
  have h := List.length_eq_countP_add_countP p R
  rw [h]
  congr 1
  refine List.countP_congr ?_
  intro a _
  simp

/-- C2: `getRevealedAndUnrevealed` throws exactly when some requested
reveal name is not among the flattened names of the attribute object, and
the thrown message reports the count of names that matched nothing
(`R.size - found`); with no unmatched name it returns normally.  The
`Nodup` hypotheses express that JS object keys and JS `Set` elements are
distinct. -/
theorem c2_unknown_reveal_name_error (enc : Encoder) (O : JSObj) (R : List String)
    (hN : ((flattenObj O).map Prod.fst).Nodup) (hR : R.Nodup) :
    (R.filter (fun n => !decide (n ∈ (flattenObj O).map Prod.fst)) = [] →
      (getRevealedAndUnrevealed enc O R).isOk = true) ∧
    (R.filter (fun n => !decide (n ∈ (flattenObj O).map Prod.fst)) ≠ [] →
      getRevealedAndUnrevealed enc O R =
        Except.error (revealNotFoundMsg
          (R.filter (fun n => !decide (n ∈ (flattenObj O).map Prod.fst))).length)) := by
  classical
  have hNames : (encodeMessageObject enc O).1.Nodup := by
    rw [emo_fst]; exact sortStrings_nodup hN
  have hfilter_eq : R.filter (fun n => decide (n ∈ (encodeMessageObject enc O).1)) =
      R.filter (fun n => decide (n ∈ (flattenObj O).map Prod.fst)) := by
    refine List.filter_congr ?_
    intro a _
    simp only [decide_eq_decide, emo_fst]
    exact mem_sortStrings
  have hfilter_ne : R.filter (fun n => !decide (n ∈ (encodeMessageObject enc O).1)) =
      R.filter (fun n => !decide (n ∈ (flattenObj O).map Prod.fst)) := by
    refine List.filter_congr ?_
    intro a _
    rw [emo_fst]
    simp [mem_sortStrings]
  have hfound : (splitLoop R 0 (encodeMessageObject enc O).1
      (encodeMessageObject enc O).2).2.2 =
      (R.filter (fun n => decide (n ∈ (flattenObj O).map Prod.fst))).length := by
    rw [getRU_found, countP_mem_comm hNames hR, hfilter_eq]
  have hsplit := length_filter_split R
    (fun n => decide (n ∈ (flattenObj O).map Prod.fst))
  constructor
  · intro hempty
    have hlen : R.length = (splitLoop R 0 (encodeMessageObject enc O).1
        (encodeMessageObject enc O).2).2.2 := by
      rw [hfound, hsplit, hempty]
      simp
    rw [getRU_unfold, if_neg (by omega)]
    rfl
  · intro hne
    have hpos : 0 < (R.filter
        (fun n => !decide (n ∈ (flattenObj O).map Prod.fst))).length :=
      List.length_pos.mpr hne
    rw [getRU_unfold, if_pos (by omega)]
    congr 1
    congr 1
    omega

lemma isValidMsgStructure_eq_true_iff (messages : JSObj) (M : MsgStructure) :
    isValidMsgStructure messages M = true ↔
      sortStrings ((flattenObj messages).map Prod.fst) = sortedStructNames M := by
  unfold isValidMsgStructure
  simp only [Bool.and_eq_true, beq_iff_eq, List.all_eq_true, List.mem_range]
  constructor
  · rintro ⟨hlen, hall⟩
    refine List.ext_get?' ?_
    intro n hn
    have hn' : n < (sortStrings ((flattenObj messages).map Prod.fst)).length + 1 := by
      omega
    exact (hall n hn').symm
  · intro heq
    rw [heq]
    exact ⟨rfl, fun i _ => rfl⟩

/-- C10: `isValidMsgStructure` returns `true` exactly when the sorted
flattened key list of the messages object equals the sorted flattened leaf
list of the message structure.  The model includes the source loop's final
out-of-bounds iteration (bound `i <= length`): it compares the `Option`
results of two out-of-bounds reads (`undefined === undefined` in JS) and
never changes the result, as the equivalence shows. -/
theorem c10_isValidMsgStructure_iff_sorted_names_eq (messages : JSObj)
    (M : MsgStructure) :
    isValidMsgStructure messages M = true ↔
      sortStrings ((flattenObj messages).map Prod.fst) = sortedStructNames M :=
  isValidMsgStructure_eq_true_iff messages M

/-- Witness for C10 at a concrete object and matching structure. -/
theorem c10_witness :
    isValidMsgStructure
      (JSObj.cons "b" (JSObj.leaf "1")
        (JSObj.cons "a" (JSObj.cons "x" (JSObj.leaf "2") JSObj.nil) JSObj.nil))
      (MsgStructure.cons "a"
        (MsgStructure.cons "x" MsgStructure.leaf MsgStructure.nil)
        (MsgStructure.cons "b" MsgStructure.leaf MsgStructure.nil)) = true :=
  (c10_isValidMsgStructure_iff_sorted_names_eq _ _).mpr (by decide)

lemma indexOf_eq_of_get? {names : List String} {j : ℕ} {nm : String}
    (hN : names.Nodup) (hget : names.get? j = some nm) :
    names.indexOf nm = j := by
  have hmem : nm ∈ names := List.get?_mem hget
  have hlt : names.indexOf nm < names.length := List.indexOf_lt_length.mpr hmem
  refine List.get?_inj hlt hN ?_
  rw [List.indexOf_get? hmem, hget]

lemma encodeRevealedLoop_ok (enc : Encoder) (names : List String) :
    ∀ raw : List (String × Value), (∀ p ∈ raw, p.1 ∈ names) →
      encodeRevealedLoop enc names raw =
        Except.ok (raw.map (fun p => (names.indexOf p.1, enc p.1 p.2))) := by
  intro raw
  induction raw with
  | nil => intro _; rfl
  | cons p rest ih =>
    intro h
    obtain ⟨n, v⟩ := p
    have hn : n ∈ names := h (n, v) (List.mem_cons_self _ _)
    rw [encodeRevealedLoop, if_pos hn,
      ih (fun q hq => h q (List.mem_cons_of_mem _ hq))]
    rfl

/-- C3: prover/verifier round trip.  For an object valid under the message
structure and an accepted revealed-name set, the verifier-side
`encodeRevealedMsgs` applied to the raw revealed values returns the same
canonical-index-to-encoded-value map as the prover-side revealed half (the
lists are permutations of one another, i.e. equal as maps; the JS `Map`s
differ only in iteration order).  The `Nodup` hypotheses express that JS
object keys and JS `Set` elements are distinct. -/
theorem c3_encodeRevealedMsgs_round_trip (enc : Encoder) (O : JSObj)
    (M : MsgStructure) (R : List String)
    (hValid : isValidMsgStructure O M = true)
    (hN : ((flattenObj O).map Prod.fst).Nodup) (hR : R.Nodup)
    (hSub : ∀ n ∈ R, n ∈ (encodeMessageObject enc O).1) :
    ∃ rev unrev raw,
      getRevealedAndUnrevealed enc O R = Except.ok (rev, unrev, raw) ∧
      ∃ verifierMap, encodeRevealedMsgs enc raw M = Except.ok verifierMap ∧
        verifierMap.Perm rev := by
  classical
  have hNames : (encodeMessageObject enc O).1.Nodup := by
    rw [emo_fst]; exact sortStrings_nodup hN
  have hfull : R.filter (fun n => decide (n ∈ (encodeMessageObject enc O).1)) = R :=
    List.filter_eq_self.mpr (fun a ha => by simpa using hSub a ha)
  have hcount : (encodeMessageObject enc O).1.countP (fun n => decide (n ∈ R)) =
      R.length := by
    rw [countP_mem_comm hNames hR, hfull]
  have hfound : (splitLoop R 0 (encodeMessageObject enc O).1
      (encodeMessageObject enc O).2).2.2 = R.length := by
    rw [getRU_found, hcount]
  have hstruct : sortedStructNames M = (encodeMessageObject enc O).1 := by
    rw [emo_fst]
    exact ((isValidMsgStructure_eq_true_iff O M).mp hValid).symm
  refine ⟨(splitLoop R 0 (encodeMessageObject enc O).1
      (encodeMessageObject enc O).2).1,
    (splitLoop R 0 (encodeMessageObject enc O).1
      (encodeMessageObject enc O).2).2.1,
    R.map (fun n => (n, (lookupFlat (flattenObj O) n).getD "")),
    ?_, ?_⟩
  · rw [getRU_unfold, if_neg (by omega)]
  · have hraw : ∀ p ∈ R.map (fun n => (n, (lookupFlat (flattenObj O) n).getD "")),
        p.1 ∈ (encodeMessageObject enc O).1 := by
      intro p hp
      rcases List.mem_map.mp hp with ⟨n, hn, hpn⟩
      subst hpn
      exact hSub n hn
    refine ⟨R.map ((fun p : String × Value =>
        ((encodeMessageObject enc O).1.indexOf p.1, enc p.1 p.2)) ∘
          (fun n => (n, (lookupFlat (flattenObj O) n).getD ""))), ?_, ?_⟩
    · unfold encodeRevealedMsgs
      rw [hstruct]
      rw [encodeRevealedLoop_ok enc (encodeMessageObject enc O).1 _ hraw]
      rw [List.map_map]
    · have hvN : (R.map ((fun p : String × Value =>
          ((encodeMessageObject enc O).1.indexOf p.1, enc p.1 p.2)) ∘
            (fun n => (n, (lookupFlat (flattenObj O) n).getD "")))).Nodup := by
        refine List.Nodup.map_on ?_ hR
        intro x hx y hy hxy
        simp only [Function.comp_apply, Prod.mk.injEq] at hxy
        have hgx := List.indexOf_get? (hSub x hx)
        have hgy := List.indexOf_get? (hSub y hy)
        rw [hxy.1] at hgx
        rw [hgx] at hgy
        exact Option.some.inj hgy
      have hrN : ((splitLoop R 0 (encodeMessageObject enc O).1
          (encodeMessageObject enc O).2).1).Nodup := by
        have hp : ((splitLoop R 0 (encodeMessageObject enc O).1
            (encodeMessageObject enc O).2).1).Pairwise (fun a b => a.1 < b.1) := by
          rw [emo_fst, emo_snd]
          exact splitLoop_rev_pairwise R _ _ 0
        exact hp.imp (fun hab he => by rw [he] at hab; exact lt_irrefl _ hab)
      refine (List.perm_ext_iff_of_nodup hvN hrN).mpr ?_
      rintro ⟨j, w⟩
      rw [splitLoop_rev_mem_zero]
      constructor
      · intro hmem
        rcases List.mem_map.mp hmem with ⟨n, hn, hpn⟩
        simp only [Function.comp_apply, Prod.mk.injEq] at hpn
        refine ⟨n, ?_, hn, ?_⟩
        · rw [← hpn.1]
          exact List.indexOf_get? (hSub n hn)
        · rw [emo_snd, List.get?_map, ← hpn.1, ← emo_fst enc O,
            List.indexOf_get? (hSub n hn), ← hpn.2]
          rfl
      · rintro ⟨nm, hget, hmem, hw⟩
        refine List.mem_map.mpr ⟨nm, hmem, ?_⟩
        simp only [Function.comp_apply, Prod.mk.injEq]
        refine ⟨indexOf_eq_of_get? hNames hget, ?_⟩
        rw [emo_snd, List.get?_map, ← emo_fst enc O, hget] at hw
        simp only [Option.map_some'] at hw
        exact Option.some.inj hw

/-- Witness for C1: revealing `b` of `objW` succeeds. -/
theorem c1_witness : (getRevealedAndUnrevealed encW objW ["b"]).isOk = true := by
  rcases c1_partition_covers_encoding encW objW ["b"] (by decide) (by decide)
    (by decide) with ⟨rev, unrev, raw, hok, -⟩
  rw [hok]
  rfl

/-- Witness for C2: requesting the unknown name `zz` on `objW` yields the
error reporting one unmatched name. -/
theorem c2_witness :
    getRevealedAndUnrevealed encW objW ["b", "zz"] =
      Except.error (revealNotFoundMsg
        ((["b", "zz"].filter
          (fun n => !decide (n ∈ (flattenObj objW).map Prod.fst))).length)) :=
  (c2_unknown_reveal_name_error encW objW ["b", "zz"] (by decide) (by decide)).2
    (by decide)

/-- Witness for C3: the round trip on `objW`/`structW` revealing `b`. -/
theorem c3_witness :
    ∃ rev unrev raw,
      getRevealedAndUnrevealed encW objW ["b"] = Except.ok (rev, unrev, raw) ∧
      ∃ verifierMap, encodeRevealedMsgs encW raw structW = Except.ok verifierMap ∧
        verifierMap.Perm rev :=
  c3_encodeRevealedMsgs_round_trip encW objW structW ["b"] (by decide) (by decide)
    (by decide) (by decide)

/-- C4 (counterexample): under the lexicographically sorted canonical order
(city, email, fname, lname, ssn) the revealed names lname and city resolve
to indices 3 and 0, not to the indices 2 and 4 the claim states (those are
the positions of lname and city in the test's unsorted insertion order
ssn, fname, lname, email, city). -/
theorem c4_counterexample :
    sortedStructNames scenarioStruct = ["city", "email", "fname", "lname", "ssn"] ∧
    getIndicesForMsgNames ["lname", "city"] scenarioStruct = Except.ok [3, 0] ∧
    getIndicesForMsgNames ["lname", "city"] scenarioStruct ≠ Except.ok [2, 4] ∧
    getIndicesForMsgNames ["lname", "city"] scenarioStruct ≠ Except.ok [4, 2] := by
  decide

/-- C4 (amended): for the attribute set with leaf names ssn, fname, lname,
email, city, revealing lname and city yields canonical indices 3 and 0
(in the order the names are given), the positions of lname and city in the
lexicographically sorted flattened list city, email, fname, lname, ssn. -/
theorem c4_amended :
    sortedStructNames scenarioStruct = ["city", "email", "fname", "lname", "ssn"] ∧
    getIndicesForMsgNames ["lname", "city"] scenarioStruct = Except.ok [3, 0] := by
  decide

/-- C5: `CredentialBuilder.sign` succeeds exactly when the sorted flattened
key list of the serialized credential equals the schema's flattened leaf
list (the `hasAllFieldsFromSchema` comparison); on a mismatch it throws
before invoking the signing primitive — the result is the error regardless
of the signing function. -/
theorem c5_sign_schema_enforcement (b : CredentialBuilder)
    (f g : JSObj → EncodedMsg) :
    ((b.sign f).isOk = true ↔
      sortStrings ((flattenObj b.serializeForSigning).map Prod.fst) =
        b.schema.flattenedNames) ∧
    (sortStrings ((flattenObj b.serializeForSigning).map Prod.fst) =
        b.schema.flattenedNames →
      b.sign f = Except.ok (f b.serializeForSigning)) ∧
    (sortStrings ((flattenObj b.serializeForSigning).map Prod.fst) ≠
        b.schema.flattenedNames →
      b.sign f = Except.error "Credential does not have all the fields from schema" ∧
      b.sign f = b.sign g) := by
  by_cases h : sortStrings ((flattenObj b.serializeForSigning).map Prod.fst) =
      b.schema.flattenedNames
  · have hb : hasAllFieldsFromSchema b.serializeForSigning b.schema = true := by
      unfold hasAllFieldsFromSchema areArraysEqual
      rw [beq_iff_eq]
      exact h.symm
    have hsign : b.sign f = Except.ok (f b.serializeForSigning) := by
      unfold CredentialBuilder.sign
      rw [if_pos hb]
    refine ⟨⟨fun _ => h, fun _ => by rw [hsign]; rfl⟩, fun _ => hsign,
      fun hc => absurd h hc⟩
  · have hb : ¬ hasAllFieldsFromSchema b.serializeForSigning b.schema = true := by
      unfold hasAllFieldsFromSchema areArraysEqual
      rw [beq_iff_eq]
      exact fun he => h he.symm
    have hsign : b.sign f =
        Except.error "Credential does not have all the fields from schema" := by
      unfold CredentialBuilder.sign
      rw [if_neg hb]
    have hsigng : b.sign g =
        Except.error "Credential does not have all the fields from schema" := by
      unfold CredentialBuilder.sign
      rw [if_neg hb]
    refine ⟨⟨fun hok => ?_, fun he => absurd he h⟩, fun he => absurd he h,
      fun _ => ⟨hsign, by rw [hsign, hsigng]⟩⟩
    rw [hsign] at hok
    cases hok

/-- Witness for C5: `builderW`'s serialized fields match its schema, so
signing succeeds. -/
theorem c5_witness : (builderW.sign (fun _ => [])).isOk = true :=
  (c5_sign_schema_enforcement builderW (fun _ => []) (fun _ => [])).1.mpr (by decide)

/-- C8: the accumulator state-store contract scenario.  From the empty
state: adding a member succeeds, re-adding it fails, removing a
never-added member fails, and after the batch add of two fresh members the
state has exactly 3 members and repeating the same batch add fails; since
failed operations return only an error (no new state), the caller's state
after each failure is exactly the 3-member (respectively 1-member) state it
passed in. -/
theorem c8_accumulator_state_contract :
    accumStateAdd [] 101 = Except.ok [101] ∧
    (accumStateAdd [101] 101).isOk = false ∧
    (accumStateRemove [101] 102).isOk = false ∧
    accumStateAdd [101] 102 = Except.ok [101, 102] ∧
    accumStateRemove [101, 102] 102 = Except.ok [101] ∧
    accumStateAddBatch [101] [103, 104] = Except.ok [101, 103, 104] ∧
    [101, 103, 104].length = 3 ∧
    (accumStateAddBatch [101, 103, 104] [103, 104]).isOk = false := by
  decide

lemma sortEntries_eq_of_perm {m1 m2 : List (Nat × EncodedMsg)}
    (hperm : m1.Perm m2) (hkeys : m1.Pairwise (fun a b => a.1 ≠ b.1)) :
    sortEntries m1 = sortEntries m2 := by
  have hsymm : ∀ {x y : Nat × EncodedMsg}, x.1 ≠ y.1 → y.1 ≠ x.1 :=
    fun h => h.symm
  have p1 : (sortEntries m1).Perm m1 := List.perm_insertionSort entryLE m1
  have p2 : (sortEntries m2).Perm m2 := List.perm_insertionSort entryLE m2
  have p : (sortEntries m1).Perm (sortEntries m2) :=
    p1.trans (hperm.trans p2.symm)
  have hk1 : (sortEntries m1).Pairwise (fun a b => a.1 ≠ b.1) :=
    (p1.pairwise_iff hsymm).mpr hkeys
  have hk2 : (sortEntries m2).Pairwise (fun a b => a.1 ≠ b.1) :=
    (p2.pairwise_iff hsymm).mpr ((hperm.pairwise_iff hsymm).mp hkeys)
  have hs1 : (sortEntries m1).Pairwise entryLE :=
    List.sorted_insertionSort entryLE m1
  have hs2 : (sortEntries m2).Pairwise entryLE :=
    List.sorted_insertionSort entryLE m2
  have hst1 : List.Sorted entryLT (sortEntries m1) :=
    (hs1.and hk1).imp (fun h => Nat.lt_of_le_of_ne h.1 h.2)
  have hst2 : List.Sorted entryLT (sortEntries m2) :=
    (hs2.and hk2).imp (fun h => Nat.lt_of_le_of_ne h.1 h.2)
  exact List.eq_of_perm_of_sorted p hst1 hst2

/-- C9: the blind-signature witness builders are insensitive to map
insertion order.  For two entry lists of the same messages map (a JS map:
same pairs, distinct keys, any insertion order), the BBS, BBS+ and PS
witness builders produce identical outputs, because each sorts the entries
by message index before building the Pedersen-commitment witness. -/
theorem c9_blind_witness_insertion_order_invariance
    (m1 m2 : List (Nat × EncodedMsg)) (blinding : EncodedMsg)
    (blindings : List (Nat × EncodedMsg))
    (hperm : m1.Perm m2) (hkeys : m1.Pairwise (fun a b => a.1 ≠ b.1)) :
    getBBSWitnessForBlindSigRequest m1 = getBBSWitnessForBlindSigRequest m2 ∧
    getBBSPlusWitnessForBlindSigRequest m1 blinding =
      getBBSPlusWitnessForBlindSigRequest m2 blinding ∧
    getPSWitnessesForBlindSigRequest m1 blinding blindings =
      getPSWitnessesForBlindSigRequest m2 blinding blindings := by
  have h := sortEntries_eq_of_perm hperm hkeys
  refine ⟨?_, ?_, ?_⟩
  · unfold getBBSWitnessForBlindSigRequest
    rw [h]
  · unfold getBBSPlusWitnessForBlindSigRequest
    rw [h]
  · unfold getPSWitnessesForBlindSigRequest
    rw [h]

/-- Witness for C9: a two-entry map in its two insertion orders gives the
same BBS witness. -/
theorem c9_witness :
    getBBSWitnessForBlindSigRequest [(2, [5]), (1, [7])] =
      getBBSWitnessForBlindSigRequest [(1, [7]), (2, [5])] :=
  (c9_blind_witness_insertion_order_invariance [(2, [5]), (1, [7])]
    [(1, [7]), (2, [5])] [9] [(1, [0]), (2, [1])] (by decide) (by decide)).1

lemma exceptMap_isOk {ε α β : Type} (f : α → β) (e : Except ε α) :
    (e.map f).isOk = e.isOk := by
  cases e <;> rfl

lemma getIndicesLoop_ok (allNames : List String) :
    ∀ msgNames : List String, (∀ n ∈ msgNames, n ∈ allNames) →
      getIndicesLoop allNames msgNames =
        Except.ok (msgNames.map (fun n => allNames.indexOf n)) := by
  intro msgNames
  induction msgNames with
  | nil => intro _; rfl
  | cons n rest ih =>
    intro h
    have hn : n ∈ allNames := h n (List.mem_cons_self _ _)
    rw [getIndicesLoop, if_pos hn, ih (fun q hq => h q (List.mem_cons_of_mem _ hq))]
    rfl

lemma getIndicesLoop_isOk_iff (allNames : List String) :
    ∀ msgNames : List String,
      (getIndicesLoop allNames msgNames).isOk = true ↔
        ∀ n ∈ msgNames, n ∈ allNames := by
  intro msgNames
  induction msgNames with
  | nil =>
    constructor
    · intro _ n hn; cases hn
    · intro _; rfl
  | cons n rest ih =>
    by_cases hn : n ∈ allNames
    · rw [getIndicesLoop, if_pos hn, exceptMap_isOk, ih]
      constructor
      · intro h m hm
        rcases List.mem_cons.mp hm with rfl | hm
        · exact hn
        · exact h m hm
      · intro h m hm
        exact h m (List.mem_cons_of_mem _ hm)
    · rw [getIndicesLoop, if_neg hn]
      constructor
      · intro h
        exact Bool.noConfusion h
      · intro h
        exact absurd (h n (List.mem_cons_self _ _)) hn

lemma cwems_ok :
    ∀ equality : List (Nat × List String × MsgStructure),
      (∀ e ∈ equality, ∀ n ∈ e.2.1, n ∈ sortedStructNames e.2.2) →
      createWitnessEqualityMetaStatement equality =
        Except.ok (equality.flatMap (fun e =>
          e.2.1.map (fun n => (e.1, (sortedStructNames e.2.2).indexOf n)))) := by
  intro equality
  induction equality with
  | nil => intro _; rfl
  | cons e rest ih =>
    obtain ⟨sIdx, names, struct⟩ := e
    intro h
    have h1 : ∀ n ∈ names, n ∈ sortedStructNames struct :=
      fun n hn => h (sIdx, names, struct) (List.mem_cons_self _ _) n hn
    have hg : getIndicesForMsgNames names struct =
        Except.ok (names.map (fun n => (sortedStructNames struct).indexOf n)) := by
      rw [getIndicesForMsgNames]
      exact getIndicesLoop_ok _ _ h1
    simp only [createWitnessEqualityMetaStatement, hg,
      ih (fun q hq => h q (List.mem_cons_of_mem _ hq))]
    rw [List.flatMap_cons, List.map_map]
    rfl

lemma cwems_isOk_iff :
    ∀ equality : List (Nat × List String × MsgStructure),
      (createWitnessEqualityMetaStatement equality).isOk = true ↔
        ∀ e ∈ equality, ∀ n ∈ e.2.1, n ∈ sortedStructNames e.2.2 := by
  intro equality
  induction equality with
  | nil =>
    constructor
    · intro _ e he; cases he
    · intro _; rfl
  | cons e rest ih =>
    obtain ⟨sIdx, names, struct⟩ := e
    cases hg : getIndicesForMsgNames names struct with
    | error err =>
      have hmiss : ¬ ∀ n ∈ names, n ∈ sortedStructNames struct := by
        intro hall
        have hok := (getIndicesLoop_isOk_iff (sortedStructNames struct) names).mpr hall
        rw [getIndicesForMsgNames] at hg
        rw [hg] at hok
        exact Bool.noConfusion hok
      simp only [createWitnessEqualityMetaStatement, hg]
      constructor
      · intro h
        exact Bool.noConfusion h
      · intro hall
        exact absurd
          (fun n hn => hall (sIdx, names, struct) (List.mem_cons_self _ _) n hn) hmiss
    | ok indices =>
      have hnames : ∀ n ∈ names, n ∈ sortedStructNames struct := by
        have hok : (getIndicesForMsgNames names struct).isOk = true := by
          rw [hg]; rfl
        rw [getIndicesForMsgNames] at hok
        exact (getIndicesLoop_isOk_iff _ _).mp hok
      cases hr : createWitnessEqualityMetaStatement rest with
      | error err =>
        have hrest : ¬ ∀ e ∈ rest, ∀ n ∈ e.2.1, n ∈ sortedStructNames e.2.2 := by
          intro hall
          have hok := ih.mpr hall
          rw [hr] at hok
          exact Bool.noConfusion hok
        simp only [createWitnessEqualityMetaStatement, hg, hr]
        constructor
        · intro h
          exact Bool.noConfusion h
        · intro hall
          exact absurd (fun q hq => hall q (List.mem_cons_of_mem _ hq)) hrest
      | ok r =>
        simp only [createWitnessEqualityMetaStatement, hg, hr]
        constructor
        · intro _ q hq
          rcases List.mem_cons.mp hq with rfl | hq
          · exact hnames
          · have hok : (createWitnessEqualityMetaStatement rest).isOk = true := by
              rw [hr]; rfl
            exact ih.mp hok q hq
        · intro _; rfl

/-- C7: `createWitnessEqualityMetaStatement` throws exactly when some
requested name is not among its own structure's sorted flattened leaves;
otherwise it returns, for each equality entry in order, one witness
reference `(statementIndex, canonicalIndex(name))` per name in the given
order, where the canonical index is the name's position in that entry's
lexicographically sorted flattened path list (the sorted list holds the
name at the returned index). -/
theorem c7_witness_equality_meta_statement
    (equality : List (Nat × List String × MsgStructure)) :
    ((createWitnessEqualityMetaStatement equality).isOk = true ↔
      ∀ e ∈ equality, ∀ n ∈ e.2.1, n ∈ sortedStructNames e.2.2) ∧
    ((∀ e ∈ equality, ∀ n ∈ e.2.1, n ∈ sortedStructNames e.2.2) →
      createWitnessEqualityMetaStatement equality =
        Except.ok (equality.flatMap (fun e =>
          e.2.1.map (fun n => (e.1, (sortedStructNames e.2.2).indexOf n))))) ∧
    (∀ e ∈ equality, ∀ n ∈ e.2.1, n ∈ sortedStructNames e.2.2 →
      (sortedStructNames e.2.2).get? ((sortedStructNames e.2.2).indexOf n) =
        some n) :=
  ⟨cwems_isOk_iff equality, cwems_ok equality,
    fun _ _ n _ hmem => List.indexOf_get? hmem⟩

/-- Witness for C7 at the concrete equality specification `equalityW`. -/
theorem c7_witness :
    createWitnessEqualityMetaStatement equalityW =
      Except.ok (equalityW.flatMap (fun e =>
        e.2.1.map (fun n => (e.1, (sortedStructNames e.2.2).indexOf n)))) :=
  (c7_witness_equality_meta_statement equalityW).2.1 (by decide)

lemma hasKey_eq_mem (o : JSObj) (key : String) :
    hasKey o key = true ↔ key ∈ recordKeys o := by
  induction o with
  | leaf v => simp [hasKey, recordKeys]
  | nil => simp [hasKey, recordKeys]
  | cons k v rest ihv ihr =>
    rw [hasKey, recordKeys]
    simp only [Bool.or_eq_true, beq_iff_eq, List.mem_cons, ihr]
    constructor
    · rintro (h | h)
      · exact Or.inl h.symm
      · exact Or.inr h
    · rintro (h | h)
      · exact Or.inl h.symm
      · exact Or.inr h

lemma mem_recordKeys_setKey {o : JSObj} {k a : String} {v : JSObj}
    (h : a ∈ recordKeys (setKey o k v)) : a ∈ recordKeys o ∨ a = k := by
  induction o with
  | leaf w => exact Or.inl h
  | nil =>
    right
    simpa [setKey, recordKeys] using h
  | cons k2 v2 rest ihv ihr =>
    rw [setKey] at h
    by_cases hk : k2 = k
    · rw [if_pos hk] at h
      rw [recordKeys] at h ⊢
      exact Or.inl h
    · rw [if_neg hk] at h
      rw [recordKeys] at h ⊢
      rcases List.mem_cons.mp h with h | h
      · exact Or.inl (by rw [h]; exact List.mem_cons_self _ _)
      · rcases ihr h with h | h
        · exact Or.inl (List.mem_cons_of_mem _ h)
        · exact Or.inr h

lemma nodup_setKey {o : JSObj} (hnd : (recordKeys o).Nodup) (k : String)
    (v : JSObj) : (recordKeys (setKey o k v)).Nodup := by
  induction o with
  | leaf w => exact hnd
  | nil =>
    show ([k] : List String).Nodup
    simp
  | cons k2 v2 rest ihv ihr =>
    rw [recordKeys, List.nodup_cons] at hnd
    rw [setKey]
    by_cases hk : k2 = k
    · rw [if_pos hk, recordKeys, List.nodup_cons]
      exact ⟨hnd.1, hnd.2⟩
    · rw [if_neg hk, recordKeys, List.nodup_cons]
      refine ⟨?_, ihr hnd.2⟩
      intro hmem
      rcases mem_recordKeys_setKey hmem with h | h
      · exact hnd.1 h
      · exact hk h

lemma nodup_foldl_setKey (tl : List (String × JSObj)) :
    ∀ o : JSObj, (recordKeys o).Nodup →
      (recordKeys (tl.foldl (fun acc kv => setKey acc kv.1 kv.2) o)).Nodup := by
  induction tl with
  | nil => intro o h; exact h
  | cons kv tl ih =>
    intro o h
    exact ih (setKey o kv.1 kv.2) (nodup_setKey h kv.1 kv.2)

lemma nodup_applyDefault {o : JSObj} (pt : String)
    (hnd : (recordKeys o).Nodup) :
    (recordKeys (applyDefaultProofMetadataIfNeeded pt o)).Nodup := by
  rw [applyDefaultProofMetadataIfNeeded]
  by_cases h : hasKey o PROOF_STR
  · rw [if_pos h]; exact hnd
  · rw [if_neg h]
    exact nodup_setKey hnd PROOF_STR _

lemma hasKey_removeKey_self (o : JSObj) (key : String) :
    hasKey (removeKey o key) key = false := by
  induction o with
  | leaf v => rfl
  | nil => rfl
  | cons k v rest ihv ihr =>
    rw [removeKey]
    by_cases hk : k = key
    · rw [if_pos hk]; exact ihr
    · rw [if_neg hk, hasKey]
      have hb : (k == key) = false := by simpa using hk
      rw [hb, ihr]
      rfl

lemma noPVUP_of_not_hasKey {o : JSObj}
    (h : hasKey o PROOF_STR = false) :
    hasProofValueUnderProof o = false := by
  induction o with
  | leaf v => rfl
  | nil => rfl
  | cons k v rest ihv ihr =>
    rw [hasKey] at h
    rcases Bool.or_eq_false_iff.mp h with ⟨h1, h2⟩
    rw [hasProofValueUnderProof, h1, ihr h2]
    rfl

lemma noPVUP_mapKey {s : JSObj} (hnd : (recordKeys s).Nodup) :
    hasProofValueUnderProof
      (mapKey s PROOF_STR (fun p => removeKey p "proofValue")) = false := by
  induction s with
  | leaf v => rfl
  | nil => rfl
  | cons k v rest ihv ihr =>
    rw [recordKeys, List.nodup_cons] at hnd
    rw [mapKey]
    by_cases hk : k = PROOF_STR
    · rw [if_pos hk]
      rw [hasProofValueUnderProof, hasKey_removeKey_self]
      have hrest : hasKey rest PROOF_STR = false := by
        cases hb : hasKey rest PROOF_STR with
        | false => rfl
        | true => exact absurd ((hasKey_eq_mem rest PROOF_STR).mp hb) (hk ▸ hnd.1)
      rw [noPVUP_of_not_hasKey hrest]
      simp
    · rw [if_neg hk]
      rw [hasProofValueUnderProof, ihr hnd.2]
      have hb : (k == PROOF_STR) = false := by simpa using hk
      rw [hb]
      rfl

lemma serialize_noProofValue (c : CredentialV) (pt : String) :
    hasProofValueUnderProof (c.serializeForSigning pt) = false := by
  unfold CredentialV.serializeForSigning
  apply noPVUP_mapKey
  apply nodup_applyDefault
  have hbase : (recordKeys (JSObj.cons CRYPTO_VERSION_STR (JSObj.leaf c.version)
      (JSObj.cons SCHEMA_STR (JSObj.leaf c.schemaJson)
        (JSObj.cons SUBJECT_STR c.subject JSObj.nil)))).Nodup := by
    show (["cryptoVersion", "credentialSchema", "credentialSubject"] : List String).Nodup
    decide
  have hfold := nodup_foldl_setKey c.topLevelFields _ hbase
  cases hst : c.credentialStatus with
  | none => exact hfold
  | some st => exact nodup_setKey hfold STATUS_STR st

lemma recordKeys_listToRecord (l : List (String × JSObj)) :
    recordKeys (listToRecord l) = l.map Prod.fst := by
  induction l with
  | nil => rfl
  | cons p rest ih =>
    obtain ⟨k, v⟩ := p
    rw [listToRecord, recordKeys, ih]
    rfl

lemma setKey_listToRecord_append {l : List (String × JSObj)} {k : String}
    {v : JSObj} (h : ∀ p ∈ l, p.1 ≠ k) :
    setKey (listToRecord l) k v = listToRecord (l ++ [(k, v)]) := by
  induction l with
  | nil => rfl
  | cons p rest ih =>
    obtain ⟨k2, v2⟩ := p
    rw [listToRecord, setKey,
      if_neg (h (k2, v2) (List.mem_cons_self _ _)),
      ih (fun q hq => h q (List.mem_cons_of_mem _ hq))]
    rfl

lemma foldl_setKey_listToRecord :
    ∀ (tl l : List (String × JSObj)),
      (∀ q ∈ tl, ∀ p ∈ l, p.1 ≠ q.1) → (tl.map Prod.fst).Nodup →
      tl.foldl (fun acc kv => setKey acc kv.1 kv.2) (listToRecord l) =
        listToRecord (l ++ tl) := by
  intro tl
  induction tl with
  | nil => intro l _ _; rw [List.foldl_nil, List.append_nil]
  | cons q tl ih =>
    intro l h hnd
    obtain ⟨k, v⟩ := q
    rw [List.foldl_cons]
    rw [List.map_cons, List.nodup_cons] at hnd
    have h1 : setKey (listToRecord l) k v = listToRecord (l ++ [(k, v)]) :=
      setKey_listToRecord_append
        (fun p hp => h (k, v) (List.mem_cons_self _ _) p hp)
    rw [h1, ih (l ++ [(k, v)]) ?_ hnd.2]
    · rw [List.append_assoc]
      rfl
    · intro q2 hq2 p hp
      rcases List.mem_append.mp hp with hp | hp
      · exact h q2 (List.mem_cons_of_mem _ hq2) p hp
      · rcases List.mem_singleton.mp hp with rfl
        intro he
        exact hnd.1 (by rw [he]; exact List.mem_map.mpr ⟨q2, hq2, rfl⟩)

lemma hasKey_listToRecord_false {l : List (String × JSObj)} {key : String}
    (h : ∀ p ∈ l, p.1 ≠ key) :
    hasKey (listToRecord l) key = false := by
  cases hb : hasKey (listToRecord l) key with
  | false => rfl
  | true =>
    have hmem := (hasKey_eq_mem _ _).mp hb
    rw [recordKeys_listToRecord] at hmem
    rcases List.mem_map.mp hmem with ⟨p, hp, hpk⟩
    exact absurd hpk (h p hp)

lemma mapKey_listToRecord_append {l : List (String × JSObj)} {key : String}
    {v : JSObj} (f : JSObj → JSObj) (h : ∀ p ∈ l, p.1 ≠ key) :
    mapKey (listToRecord (l ++ [(key, v)])) key f =
      listToRecord (l ++ [(key, f v)]) := by
  induction l with
  | nil =>
    show mapKey (JSObj.cons key v JSObj.nil) key f = _
    rw [mapKey, if_pos rfl]
    rfl
  | cons p rest ih =>
    obtain ⟨k2, v2⟩ := p
    show mapKey (JSObj.cons k2 v2 (listToRecord (rest ++ [(key, v)]))) key f = _
    rw [mapKey, if_neg (h (k2, v2) (List.mem_cons_self _ _)),
      ih (fun q hq => h q (List.mem_cons_of_mem _ hq))]
    rfl

lemma removeKey_typeBlock (pt : String) :
    removeKey (JSObj.cons "type" (JSObj.leaf pt) JSObj.nil) "proofValue" =
      JSObj.cons "type" (JSObj.leaf pt) JSObj.nil := by
  rw [removeKey, if_neg (by decide)]
  rfl

/-- C6: `Credential.serializeForSigning` returns the record holding the
version tag, the schema as a JSON string leaf, the subject, every top-level
field in insertion order, the status block exactly when `credentialStatus`
is present, and the default proof-metadata block; and no output of
`serializeForSigning` ever contains a `proofValue` entry under the `proof`
key (second conjunct, with no hypotheses on the credential).  The
hypotheses say the top-level field names are distinct and avoid the five
reserved tags. -/
theorem c6_serializeForSigning_shape (pt : String) (c : CredentialV)
    (hTL : ∀ k ∈ c.topLevelFields.map Prod.fst,
      k ∉ [CRYPTO_VERSION_STR, SCHEMA_STR, SUBJECT_STR, STATUS_STR, PROOF_STR])
    (hTLnd : (c.topLevelFields.map Prod.fst).Nodup) :
    c.serializeForSigning pt =
      listToRecord ([(CRYPTO_VERSION_STR, JSObj.leaf c.version),
          (SCHEMA_STR, JSObj.leaf c.schemaJson),
          (SUBJECT_STR, c.subject)] ++ c.topLevelFields ++
        (match c.credentialStatus with
          | some st => [(STATUS_STR, st)]
          | none => []) ++
        [(PROOF_STR, JSObj.cons "type" (JSObj.leaf pt) JSObj.nil)]) ∧
    (∀ pt2 c2, hasProofValueUnderProof (CredentialV.serializeForSigning c2 pt2) =
      false) := by
  refine ⟨?_, fun pt2 c2 => serialize_noProofValue c2 pt2⟩
  have hq : ∀ q ∈ c.topLevelFields, ¬ q.1 = CRYPTO_VERSION_STR ∧
      ¬ q.1 = SCHEMA_STR ∧ ¬ q.1 = SUBJECT_STR ∧ ¬ q.1 = STATUS_STR ∧
      ¬ q.1 = PROOF_STR := by
    intro q hqm
    have h5 := hTL q.1 (List.mem_map.mpr ⟨q, hqm, rfl⟩)
    simpa [not_or] using h5
  have hfold : c.topLevelFields.foldl (fun acc kv => setKey acc kv.1 kv.2)
      (listToRecord [(CRYPTO_VERSION_STR, JSObj.leaf c.version),
        (SCHEMA_STR, JSObj.leaf c.schemaJson), (SUBJECT_STR, c.subject)]) =
      listToRecord ([(CRYPTO_VERSION_STR, JSObj.leaf c.version),
        (SCHEMA_STR, JSObj.leaf c.schemaJson), (SUBJECT_STR, c.subject)] ++
        c.topLevelFields) := by
    refine foldl_setKey_listToRecord c.topLevelFields _ ?_ hTLnd
    intro q2 hq2 p hp
    rcases List.mem_cons.mp hp with rfl | hp
    · exact fun he => (hq q2 hq2).1 he.symm
    rcases List.mem_cons.mp hp with rfl | hp
    · exact fun he => (hq q2 hq2).2.1 he.symm
    rcases List.mem_cons.mp hp with rfl | hp
    · exact fun he => (hq q2 hq2).2.2.1 he.symm
    · cases hp
  have hser : c.serializeForSigning pt =
      mapKey (applyDefaultProofMetadataIfNeeded pt
        (match c.credentialStatus with
          | some st => setKey
              (c.topLevelFields.foldl (fun acc kv => setKey acc kv.1 kv.2)
                (listToRecord [(CRYPTO_VERSION_STR, JSObj.leaf c.version),
                  (SCHEMA_STR, JSObj.leaf c.schemaJson),
                  (SUBJECT_STR, c.subject)])) STATUS_STR st
          | none => c.topLevelFields.foldl (fun acc kv => setKey acc kv.1 kv.2)
              (listToRecord [(CRYPTO_VERSION_STR, JSObj.leaf c.version),
                (SCHEMA_STR, JSObj.leaf c.schemaJson),
                (SUBJECT_STR, c.subject)])))
        PROOF_STR (fun p => removeKey p "proofValue") := rfl
  rcases hcs : c.credentialStatus with _ | st
  · rw [hcs] at hser
    rw [hser]
    show mapKey (applyDefaultProofMetadataIfNeeded pt
        (c.topLevelFields.foldl (fun acc kv => setKey acc kv.1 kv.2)
          (listToRecord [(CRYPTO_VERSION_STR, JSObj.leaf c.version),
            (SCHEMA_STR, JSObj.leaf c.schemaJson), (SUBJECT_STR, c.subject)])))
      PROOF_STR (fun p => removeKey p "proofValue") =
      listToRecord (([(CRYPTO_VERSION_STR, JSObj.leaf c.version),
          (SCHEMA_STR, JSObj.leaf c.schemaJson),
          (SUBJECT_STR, c.subject)] ++ c.topLevelFields ++ []) ++
        [(PROOF_STR, JSObj.cons "type" (JSObj.leaf pt) JSObj.nil)])
    rw [hfold]
    have hnop : ∀ p ∈ ([(CRYPTO_VERSION_STR, JSObj.leaf c.version),
        (SCHEMA_STR, JSObj.leaf c.schemaJson), (SUBJECT_STR, c.subject)] ++
        c.topLevelFields), p.1 ≠ PROOF_STR := by
      intro p hp
      rcases List.mem_append.mp hp with hp | hp
      · rcases List.mem_cons.mp hp with rfl | hp
        · exact (by decide : CRYPTO_VERSION_STR ≠ PROOF_STR)
        rcases List.mem_cons.mp hp with rfl | hp
        · exact (by decide : SCHEMA_STR ≠ PROOF_STR)
        rcases List.mem_cons.mp hp with rfl | hp
        · exact (by decide : SUBJECT_STR ≠ PROOF_STR)
        · cases hp
      · exact (hq p hp).2.2.2.2
    rw [applyDefaultProofMetadataIfNeeded, hasKey_listToRecord_false hnop,
      if_neg (fun h => Bool.noConfusion h),
      setKey_listToRecord_append hnop, mapKey_listToRecord_append _ hnop,
      removeKey_typeBlock]
    simp [List.append_assoc]
  · rw [hcs] at hser
    rw [hser]
    show mapKey (applyDefaultProofMetadataIfNeeded pt
        (setKey (c.topLevelFields.foldl (fun acc kv => setKey acc kv.1 kv.2)
          (listToRecord [(CRYPTO_VERSION_STR, JSObj.leaf c.version),
            (SCHEMA_STR, JSObj.leaf c.schemaJson), (SUBJECT_STR, c.subject)]))
          STATUS_STR st))
      PROOF_STR (fun p => removeKey p "proofValue") =
      listToRecord (([(CRYPTO_VERSION_STR, JSObj.leaf c.version),
          (SCHEMA_STR, JSObj.leaf c.schemaJson),
          (SUBJECT_STR, c.subject)] ++ c.topLevelFields ++ [(STATUS_STR, st)]) ++
        [(PROOF_STR, JSObj.cons "type" (JSObj.leaf pt) JSObj.nil)])
    rw [hfold]
    have hnos : ∀ p ∈ ([(CRYPTO_VERSION_STR, JSObj.leaf c.version),
        (SCHEMA_STR, JSObj.leaf c.schemaJson), (SUBJECT_STR, c.subject)] ++
        c.topLevelFields), p.1 ≠ STATUS_STR := by
      intro p hp
      rcases List.mem_append.mp hp with hp | hp
      · rcases List.mem_cons.mp hp with rfl | hp
        · exact (by decide : CRYPTO_VERSION_STR ≠ STATUS_STR)
        rcases List.mem_cons.mp hp with rfl | hp
        · exact (by decide : SCHEMA_STR ≠ STATUS_STR)
        rcases List.mem_cons.mp hp with rfl | hp
        · exact (by decide : SUBJECT_STR ≠ STATUS_STR)
        · cases hp
      · exact (hq p hp).2.2.2.1
    rw [setKey_listToRecord_append hnos]
    have hnop : ∀ p ∈ (([(CRYPTO_VERSION_STR, JSObj.leaf c.version),
        (SCHEMA_STR, JSObj.leaf c.schemaJson), (SUBJECT_STR, c.subject)] ++
        c.topLevelFields) ++ [(STATUS_STR, st)]), p.1 ≠ PROOF_STR := by
      intro p hp
      rcases List.mem_append.mp hp with hp | hp
      · rcases List.mem_append.mp hp with hp | hp
        · rcases List.mem_cons.mp hp with rfl | hp
          · exact (by decide : CRYPTO_VERSION_STR ≠ PROOF_STR)
          rcases List.mem_cons.mp hp with rfl | hp
          · exact (by decide : SCHEMA_STR ≠ PROOF_STR)
          rcases List.mem_cons.mp hp with rfl | hp
          · exact (by decide : SUBJECT_STR ≠ PROOF_STR)
          · cases hp
        · exact (hq p hp).2.2.2.2
      · rcases List.mem_singleton.mp hp with rfl
        exact (by decide : STATUS_STR ≠ PROOF_STR)
    rw [applyDefaultProofMetadataIfNeeded, hasKey_listToRecord_false hnop,
      if_neg (fun h => Bool.noConfusion h),
      setKey_listToRecord_append hnop, mapKey_listToRecord_append _ hnop,
      removeKey_typeBlock]

/-- Witness for C6 at the concrete credential `credW`. -/
theorem c6_witness :
    hasProofValueUnderProof
      (CredentialV.serializeForSigning credW "TestProofType2022") = false :=
  (c6_serializeForSigning_shape "TestProofType2022" credW (by decide)
    (by decide)).2 "TestProofType2022" credW

end CryptoWasmTs
